import Mathlib

/-!
Verification of the recursive PII redaction engine of
`upload_app.py` / `generate_upload_app.py`: the key sanitizer
`sanitize_key`, the key extractor `extract_keys` and the anonymization
transform `anonymize`, embedded shallowly over a `Json` sum type.

Strings are modelled as `List Char` (Lean `Char` = Unicode code point),
wrapped into `String` at the interface.  The CPython string/regex
primitives the engine uses (`str.lower`, `str.title`, `str.isdigit`,
`re.match` with `re.IGNORECASE` on the five fixed key patterns) are
modelled on the character range they are exercised on here: the full
ASCII range, plus the code points U+0130 (LATIN CAPITAL LETTER I WITH
DOT ABOVE, whose CPython lowercase mapping is the two-code-point string
U+0069 U+0307), U+0307 (COMBINING DOT ABOVE, not a cased character) and
U+00B2 (SUPERSCRIPT TWO, for which CPython `str.isdigit` is true).
Outside that range the maps act as the identity.
-/

/-- Latin capital letter I with dot above (U+0130). -/
def charIdot : Char := Char.ofNat 0x130

/-- Combining dot above (U+0307). -/
def charCombDot : Char := Char.ofNat 0x307

/-- Superscript two (U+00B2). -/
def charSup2 : Char := Char.ofNat 0xB2

/-- True iff `c` is an ASCII uppercase letter. -/
def isAsciiUpper (c : Char) : Bool := 'A' ≤ c && c ≤ 'Z'

/-- True iff `c` is an ASCII lowercase letter. -/
def isAsciiLower (c : Char) : Bool := 'a' ≤ c && c ≤ 'z'

/-- CPython Unicode cased property, restricted to the modelled range:
ASCII letters and U+0130 are cased; U+0307 and all other modelled
characters (digits, punctuation, whitespace, U+00B2) are not. -/
def isCased (c : Char) : Bool := isAsciiUpper c || isAsciiLower c || c = charIdot

/-- CPython full lowercase mapping `str.lower` of one character
(string-valued: U+0130 lowercases to the two characters U+0069 U+0307),
restricted to the modelled range. -/
def pyLowerChar (c : Char) : List Char :=
  if isAsciiUpper c then [Char.ofNat (c.toNat + 32)]
  else if c = charIdot then ['i', charCombDot]
  else [c]

/-- CPython titlecase mapping of one character (used by `str.title` at a
word start), restricted to the modelled range. -/
def pyTitleChar (c : Char) : List Char :=
  if isAsciiLower c then [Char.ofNat (c.toNat - 32)]
  else [c]

/-- CPython `str.title`: walk the characters keeping a flag that records
whether the previous input character was cased; an input character is
titlecased when the flag is off and lowercased when it is on, and the
flag is updated from the input character`s cased property. -/
def pyTitleAux : Bool → List Char → List Char
  | _, [] => []
  | prevCased, c :: cs =>
      (if prevCased then pyLowerChar c else pyTitleChar c) ++ pyTitleAux (isCased c) cs

/-- CPython `str.title` on a character list (initial flag off). -/
def pyTitle (cs : List Char) : List Char := pyTitleAux false cs

/-- Single-character case folding used by `re` for `re.IGNORECASE`
literal matching (per code point; ASCII range suffices for the five
patterns, whose literals are ASCII). -/
def reFold (c : Char) : Char :=
  if isAsciiUpper c then Char.ofNat (c.toNat + 32) else c

/-- True iff `lit` is a prefix of `cs` (both already case-folded). -/
def startsWithL : List Char → List Char → Bool
  | _, [] => true
  | [], _ :: _ => false
  | c :: cs, p :: ps => c = p && startsWithL cs ps

/-- Case-insensitive literal-prefix test: `re.match` of the literal
`lit` (given lowercase) against `cs` under `re.IGNORECASE`. -/
def imatchLit (cs : List Char) (lit : List Char) : Bool :=
  startsWithL (cs.map reFold) lit

/-- Model of matching the first pattern, `Chat History with .+`, with `re.match` under `re.IGNORECASE`:
the 18-character literal matches case-insensitively at the start and is
followed by at least one character other than a newline (`.` does not
match a newline; `.+` needs one such character). -/
def patChatHistory (k : List Char) : Bool :=
  imatchLit k "chat history with ".data &&
    (match k.drop 18 with
     | [] => false
     | c :: _ => c ≠ '\n')

/-- Model of matching the pattern `comments?:.*` with `re.match` under `re.IGNORECASE`: the literal
stem, an optional `s`, then a colon; `.*` always matches. -/
def patComments (k : List Char) : Bool :=
  imatchLit k "comments:".data || imatchLit k "comment:".data

/-- Model of matching the pattern `replies?:.*` with `re.match` under `re.IGNORECASE`: note the stem
is `replie`, so the matched forms are `replies:` and `replie:`. -/
def patReplies (k : List Char) : Bool :=
  imatchLit k "replies:".data || imatchLit k "replie:".data

/-- Model of matching the pattern `posts?:.*` with `re.match` under `re.IGNORECASE`. -/
def patPosts (k : List Char) : Bool :=
  imatchLit k "posts:".data || imatchLit k "post:".data

/-- Model of matching the pattern `story:.*` with `re.match` under `re.IGNORECASE`. -/
def patStory (k : List Char) : Bool :=
  imatchLit k "story:".data

/-- The ordered pattern list `KEY_PATTERNS` of `upload_app.py`, as
matcher functions. -/
def KEY_PATTERNS : List (List Char → Bool) :=
  [patChatHistory, patComments, patReplies, patPosts, patStory]

/-- True iff some pattern of `KEY_PATTERNS` matches `k` (the loop in
`sanitize_key`; all patterns share one normalization, so first-match and
any-match agree on the result). -/
def matchesAnyPattern (k : List Char) : Bool :=
  KEY_PATTERNS.any (fun p => p k)

/-- Python `k.split(':', 1)[0]`: the characters before the first colon
(the whole string when there is no colon). -/
def beforeColon (k : List Char) : List Char := k.takeWhile (fun c => c ≠ ':')

/-- Python `k.rstrip(':')`: remove every trailing colon. -/
def rstripColons (k : List Char) : List Char :=
  (k.reverse.dropWhile (fun c => c = ':')).reverse

/-- Character-list core of `sanitize_key` from `upload_app.py`: on a
pattern match, titlecase the part before the first colon; otherwise
strip the trailing colons. -/
def sanitizeKeyL (k : List Char) : List Char :=
  if matchesAnyPattern k then pyTitle (beforeColon k) else rstripColons k

/-- `sanitize_key` of `upload_app.py` on `String`. -/
def sanitize_key (k : String) : String := ⟨sanitizeKeyL k.data⟩

/-- Python `str.isdigit` on the modelled range: true iff the string is
nonempty and every character is an ASCII digit or U+00B2 (CPython
`isdigit` accepts every Unicode character with the digit property, of
which U+00B2 is the modelled representative). -/
def str_isdigit (s : String) : Bool :=
  !s.data.isEmpty && s.data.all (fun c => ('0' ≤ c && c ≤ '9') || c = charSup2)

example : sanitize_key "story" = "story" := by decide
example : sanitize_key "story:" = "Story" := by decide
example : sanitize_key "comments: thread1" = "Comments" := by decide
example : sanitize_key "reply:" = "reply" := by decide
example : sanitize_key "key::" = "key" := by decide
example : sanitize_key "Chat History with a_b" = "Chat History With A_B" := by decide
example : str_isdigit "12" = true ∧ str_isdigit "" = false := by decide

/-- JSON values as produced by `json.loads`: Python dicts become ordered
association lists of string keys (a parsed dict has pairwise-distinct
keys; the operations below rebuild dicts explicitly), lists become Lean
lists, and the scalars are strings, numbers, booleans and `None`.  The
engine never inspects a number, so its payload is modelled as `Int`. -/
inductive Json where
  | obj  : List (String × Json) → Json
  | arr  : List Json → Json
  | str  : String → Json
  | num  : Int → Json
  | bool : Bool → Json
  | null : Json

theorem sizeOf_lt_of_mem_pairs {k : String} {v : Json} {kvs : List (String × Json)}
    (h : (k, v) ∈ kvs) : sizeOf v < sizeOf (Json.obj kvs) := by
  have h1 : sizeOf (k, v) < sizeOf kvs := List.sizeOf_lt_of_mem h
  simp only [Json.obj.sizeOf_spec]
  simp [Prod.mk.sizeOf_spec] at h1
  omega

theorem sizeOf_lt_of_mem_elems {v : Json} {xs : List Json}
    (h : v ∈ xs) : sizeOf v < sizeOf (Json.arr xs) := by
  have h1 : sizeOf v < sizeOf xs := List.sizeOf_lt_of_mem h
  simp only [Json.arr.sizeOf_spec]
  omega

/-- Structural induction principle for `Json` with member hypotheses for
the two container constructors. -/
theorem Json.indOn (P : Json → Prop)
    (hobj : ∀ kvs, (∀ k v, (k, v) ∈ kvs → P v) → P (Json.obj kvs))
    (harr : ∀ xs, (∀ x, x ∈ xs → P x) → P (Json.arr xs))
    (hstr : ∀ s, P (Json.str s)) (hnum : ∀ n, P (Json.num n))
    (hbool : ∀ b, P (Json.bool b)) (hnull : P Json.null) :
    ∀ v, P v := by
  have H : ∀ n v, sizeOf v ≤ n → P v := by
    intro n
    induction n with
    | zero =>
        intro v hv
        cases v <;> simp_arith at hv
    | succ n ih =>
        intro v hv
        cases v with
        | obj kvs =>
            refine hobj kvs (fun k w hw => ih w ?_)
            have := sizeOf_lt_of_mem_pairs hw
            omega
        | arr xs =>
            refine harr xs (fun x hx => ih x ?_)
            have := sizeOf_lt_of_mem_elems hx
            omega
        | str s => exact hstr s
        | num m => exact hnum m
        | bool b => exact hbool b
        | null => exact hnull
  exact fun v => H (sizeOf v) v le_rfl

/-- Python dict insertion `d[k] = v` on an association list: if the key
is present its value is updated in place (position kept), otherwise the
pair is appended at the end. -/
def dinsert (k : String) (v : Json) : List (String × Json) → List (String × Json)
  | [] => [(k, v)]
  | (k1, v1) :: rest =>
      if k1 = k then (k1, v) :: rest else (k1, v1) :: dinsert k v rest

/-- Build a Python dict from a pair sequence in order (the evaluation of
a dict comprehension): sequential insertion into an empty dict. -/
def dictOf (pairs : List (String × Json)) : List (String × Json) :=
  pairs.foldl (fun d p => dinsert p.1 p.2 d) []

/-- Dict lookup `d[s]`, first match in the association list. -/
def dlookup (s : String) : List (String × Json) → Option Json
  | [] => none
  | (k, v) :: rest => if k = s then some v else dlookup s rest

mutual
/-- `anonymize` from `upload_app.py`: an object is rebuilt as the dict
comprehension over its pairs, sanitizing each key and replacing the
value by the sentinel string when the sanitized key is in the sensitive
set and recursing otherwise; an array is anonymized element-wise; a
scalar is returned unchanged. -/
def anonymize (S : List String) : Json → Json
  | Json.obj kvs => Json.obj (dictOf (anonymizePairs S kvs))
  | Json.arr xs => Json.arr (anonymizeList S xs)
  | v => v

/-- The pair sequence of the dict comprehension in `anonymize`. -/
def anonymizePairs (S : List String) : List (String × Json) → List (String × Json)
  | [] => []
  | (k, v) :: rest =>
      (sanitize_key k,
        if sanitize_key k ∈ S then Json.str "REDACTED" else anonymize S v)
        :: anonymizePairs S rest

/-- The element-wise list comprehension in `anonymize`. -/
def anonymizeList (S : List String) : List Json → List Json
  | [] => []
  | x :: rest => anonymize S x :: anonymizeList S rest
end

mutual
/-- `extract_keys` from `upload_app.py`: walk the value, collecting the
sanitized form of every object key whose sanitized form is not
`isdigit`, recursing into every value and every array element. -/
def extract_keys : Json → Finset String
  | Json.obj kvs => extractObj kvs
  | Json.arr xs => extractArr xs
  | _ => ∅

/-- The object loop of `extract_keys`. -/
def extractObj : List (String × Json) → Finset String
  | [] => ∅
  | (k, v) :: rest =>
      (if str_isdigit (sanitize_key k) then ∅ else {sanitize_key k}) ∪
        extract_keys v ∪ extractObj rest

/-- The array loop of `extract_keys`. -/
def extractArr : List Json → Finset String
  | [] => ∅
  | x :: rest => extract_keys x ∪ extractArr rest
end

theorem mem_dinsert {e : String × Json} {k : String} {v : Json}
    {d : List (String × Json)} (h : e ∈ dinsert k v d) : e = (k, v) ∨ e ∈ d := by
  induction d with
  | nil => simpa [dinsert] using h
  | cons p rest ih =>
      obtain ⟨k1, v1⟩ := p
      by_cases hk : k1 = k
      · simp only [dinsert, if_pos hk] at h
        rcases List.mem_cons.mp h with h1 | h1
        · left; rw [h1, hk]
        · right; exact List.mem_cons_of_mem _ h1
      · simp only [dinsert, if_neg hk] at h
        rcases List.mem_cons.mp h with h1 | h1
        · right; exact h1 ▸ List.mem_cons_self _ _
        · rcases ih h1 with h2 | h2
          · exact Or.inl h2
          · exact Or.inr (List.mem_cons_of_mem _ h2)

theorem keys_dinsert {s k : String} {v : Json} {d : List (String × Json)} :
    s ∈ (dinsert k v d).map Prod.fst ↔ s = k ∨ s ∈ d.map Prod.fst := by
  induction d with
  | nil => simp [dinsert, eq_comm]
  | cons p rest ih =>
      obtain ⟨k1, v1⟩ := p
      by_cases hk : k1 = k
      · subst hk
        simp [dinsert, eq_comm]
      · simp [dinsert, if_neg hk, ih]
        tauto

theorem nodup_keys_dinsert {k : String} {v : Json} {d : List (String × Json)}
    (h : (d.map Prod.fst).Nodup) : ((dinsert k v d).map Prod.fst).Nodup := by
  induction d with
  | nil => simp [dinsert]
  | cons p rest ih =>
      obtain ⟨k1, v1⟩ := p
      simp only [List.map_cons, List.nodup_cons] at h
      by_cases hk : k1 = k
      · simp only [dinsert, if_pos hk, List.map_cons, List.nodup_cons]
        exact ⟨h.1, h.2⟩
      · simp only [dinsert, if_neg hk, List.map_cons, List.nodup_cons]
        refine ⟨fun hc => ?_, ih h.2⟩
        rcases keys_dinsert.mp hc with h1 | h1
        · exact hk h1
        · exact h.1 h1

theorem dlookup_dinsert {s k : String} {v : Json} {d : List (String × Json)} :
    dlookup s (dinsert k v d) = if k = s then some v else dlookup s d := by
  induction d with
  | nil => simp [dinsert, dlookup]
  | cons p rest ih =>
      obtain ⟨k1, v1⟩ := p
      by_cases hk : k1 = k
      · subst hk
        by_cases hs : k1 = s
        · simp [dinsert, dlookup, hs]
        · simp [dinsert, dlookup, hs]
      · by_cases hs : k1 = s
        · subst hs
          simp only [dinsert, if_neg hk, dlookup, if_pos rfl]
          simp
          rw [if_neg (fun h : k = k1 => hk h.symm)]
        · simp [dinsert, if_neg hk, dlookup, if_neg hs, ih]

theorem dlookup_append {s : String} {a b : List (String × Json)} :
    dlookup s (a ++ b) =
      (match dlookup s a with
       | some v => some v
       | none => dlookup s b) := by
  induction a with
  | nil => simp [dlookup]
  | cons p rest ih =>
      obtain ⟨k1, v1⟩ := p
      by_cases hs : k1 = s
      · simp [dlookup, hs]
      · simp [dlookup, hs, ih]

/-- Folding the dict-comprehension step over `ps` starting from an
accumulator `d` (so `dictOf ps = dictFold d ps` with `d = []`). -/
def dictFold (d : List (String × Json)) (ps : List (String × Json)) :
    List (String × Json) :=
  ps.foldl (fun acc p => dinsert p.1 p.2 acc) d

theorem dictOf_eq_dictFold (ps : List (String × Json)) : dictOf ps = dictFold [] ps := rfl

theorem dictFold_cons {d : List (String × Json)} {p : String × Json}
    {ps : List (String × Json)} :
    dictFold d (p :: ps) = dictFold (dinsert p.1 p.2 d) ps := rfl

theorem mem_dictFold {e : String × Json} {d ps : List (String × Json)}
    (h : e ∈ dictFold d ps) : e ∈ d ∨ e ∈ ps := by
  induction ps generalizing d with
  | nil => exact Or.inl h
  | cons p rest ih =>
      rw [dictFold_cons] at h
      rcases ih h with h1 | h1
      · rcases mem_dinsert h1 with h2 | h2
        · right; rw [h2]; exact List.mem_cons_self _ _
        · exact Or.inl h2
      · exact Or.inr (List.mem_cons_of_mem _ h1)

theorem keys_dictFold {s : String} {d ps : List (String × Json)} :
    s ∈ (dictFold d ps).map Prod.fst ↔ s ∈ d.map Prod.fst ∨ s ∈ ps.map Prod.fst := by
  induction ps generalizing d with
  | nil => simp [dictFold]
  | cons p rest ih =>
      rw [dictFold_cons, ih]
      constructor
      · rintro (h1 | h1)
        · rcases keys_dinsert.mp h1 with h2 | h2
          · right; simp [h2]
          · left; exact h2
        · right; exact List.mem_cons_of_mem _ h1
      · rintro (h1 | h1)
        · left; exact keys_dinsert.mpr (Or.inr h1)
        · simp only [List.map_cons, List.mem_cons] at h1
          rcases h1 with h2 | h2
          · left; exact keys_dinsert.mpr (Or.inl h2)
          · right; exact h2

theorem nodup_keys_dictFold {d ps : List (String × Json)}
    (h : (d.map Prod.fst).Nodup) : ((dictFold d ps).map Prod.fst).Nodup := by
  induction ps generalizing d with
  | nil => exact h
  | cons p rest ih => exact dictFold_cons ▸ ih (nodup_keys_dinsert h)

theorem dlookup_dictFold {s : String} {d ps : List (String × Json)} :
    dlookup s (dictFold d ps) =
      (match dlookup s ps.reverse with
       | some v => some v
       | none => dlookup s d) := by
  induction ps generalizing d with
  | nil => simp [dictFold, dlookup]
  | cons p rest ih =>
      obtain ⟨k1, v1⟩ := p
      rw [dictFold_cons, ih]
      simp only [List.reverse_cons, dlookup_append]
      cases h1 : dlookup s rest.reverse with
      | some v => rfl
      | none =>
          simp only [dlookup, dlookup_dinsert]
          by_cases hs : k1 = s <;> simp [hs]

/-- Value of the built dict at `s`: the last binding of `s` in the pair
sequence (first binding of the reversed sequence). -/
theorem dlookup_dictOf {s : String} {ps : List (String × Json)} :
    dlookup s (dictOf ps) = dlookup s ps.reverse := by
  rw [dictOf_eq_dictFold, dlookup_dictFold]
  cases h : dlookup s ps.reverse <;> simp [dlookup]

theorem mem_dictOf {e : String × Json} {ps : List (String × Json)}
    (h : e ∈ dictOf ps) : e ∈ ps := by
  rcases mem_dictFold (dictOf_eq_dictFold ps ▸ h) with h1 | h1
  · simp at h1
  · exact h1

theorem keys_dictOf {s : String} {ps : List (String × Json)} :
    s ∈ (dictOf ps).map Prod.fst ↔ s ∈ ps.map Prod.fst := by
  rw [dictOf_eq_dictFold, keys_dictFold]
  simp

theorem nodup_keys_dictOf {ps : List (String × Json)} :
    ((dictOf ps).map Prod.fst).Nodup := by
  rw [dictOf_eq_dictFold]
  exact nodup_keys_dictFold (by simp)

/-- The built dict has one entry per distinct key of the pair sequence. -/
theorem length_dictOf (ps : List (String × Json)) :
    (dictOf ps).length = (ps.map Prod.fst).dedup.length := by
  have h1 : ((dictOf ps).map Prod.fst).toFinset = (ps.map Prod.fst).toFinset := by
    apply Finset.ext
    intro s
    simp only [List.mem_toFinset]
    exact keys_dictOf
  have h2 := List.toFinset_card_of_nodup (@nodup_keys_dictOf ps)
  rw [h1, List.card_toFinset] at h2
  calc (dictOf ps).length = ((dictOf ps).map Prod.fst).length := (List.length_map _ _).symm
    _ = (ps.map Prod.fst).dedup.length := h2.symm

theorem dlookup_eq_some_of_mem_keys {s : String} {d : List (String × Json)}
    (h : s ∈ d.map Prod.fst) : ∃ v, dlookup s d = some v ∧ (s, v) ∈ d := by
  induction d with
  | nil => simp at h
  | cons p rest ih =>
      obtain ⟨k1, v1⟩ := p
      by_cases hs : k1 = s
      · exact ⟨v1, by simp [dlookup, hs], by simp [hs]⟩
      · simp only [List.map_cons, List.mem_cons] at h
        rcases h with h1 | h1
        · exact absurd h1.symm hs
        · obtain ⟨v, hv1, hv2⟩ := ih h1
          exact ⟨v, by simp [dlookup, hs, hv1], List.mem_cons_of_mem _ hv2⟩

theorem dinsert_of_not_mem {k : String} {v : Json} {d : List (String × Json)}
    (h : k ∉ d.map Prod.fst) : dinsert k v d = d ++ [(k, v)] := by
  induction d with
  | nil => simp [dinsert]
  | cons p rest ih =>
      obtain ⟨k1, v1⟩ := p
      simp only [List.map_cons, List.mem_cons] at h
      push_neg at h
      have hk : ¬ k1 = k := fun hc => h.1 hc.symm
      simp only [dinsert, if_neg hk, List.cons_append, List.cons.injEq, true_and]
      exact ih h.2

/-- Inserting a pair sequence whose keys are already distinct rebuilds
the same sequence. -/
theorem dictOf_self {ps : List (String × Json)} (h : (ps.map Prod.fst).Nodup) :
    dictOf ps = ps := by
  have H : ∀ qs d, ((d ++ qs).map Prod.fst).Nodup → dictFold d qs = d ++ qs := by
    intro qs
    induction qs with
    | nil => intro d _; simp [dictFold]
    | cons p rest ih =>
        intro d hd
        obtain ⟨k1, v1⟩ := p
        rw [dictFold_cons]
        dsimp only
        have hnotin : k1 ∉ d.map Prod.fst := by
          intro hc
          rw [List.map_append, List.nodup_append] at hd
          exact hd.2.2 hc (by simp)
        rw [dinsert_of_not_mem hnotin]
        have h2 := ih (d ++ [(k1, v1)]) (by simpa using hd)
        rw [h2]
        simp
  have := H ps [] (by simpa using h)
  rw [dictOf_eq_dictFold, this]
  simp

theorem anonymizePairs_eq_map (S : List String) (kvs : List (String × Json)) :
    anonymizePairs S kvs = kvs.map (fun p =>
      (sanitize_key p.1,
        if sanitize_key p.1 ∈ S then Json.str "REDACTED" else anonymize S p.2)) := by
  induction kvs with
  | nil => simp [anonymizePairs]
  | cons p rest ih =>
      obtain ⟨k, v⟩ := p
      simp [anonymizePairs, ih]

theorem anonymizeList_eq_map (S : List String) (xs : List Json) :
    anonymizeList S xs = xs.map (anonymize S) := by
  induction xs with
  | nil => simp [anonymizeList]
  | cons x rest ih => simp [anonymizeList, ih]

theorem anonymizePairs_append (S : List String) (a b : List (String × Json)) :
    anonymizePairs S (a ++ b) = anonymizePairs S a ++ anonymizePairs S b := by
  simp [anonymizePairs_eq_map]

theorem keys_anonymizePairs (S : List String) (kvs : List (String × Json)) :
    (anonymizePairs S kvs).map Prod.fst = kvs.map (fun p => sanitize_key p.1) := by
  rw [anonymizePairs_eq_map, List.map_map]
  rfl

theorem mem_anonymizePairs {S : List String} {kvs : List (String × Json)}
    {e : String × Json} (h : e ∈ anonymizePairs S kvs) :
    ∃ k v, (k, v) ∈ kvs ∧
      e = (sanitize_key k,
        if sanitize_key k ∈ S then Json.str "REDACTED" else anonymize S v) := by
  rw [anonymizePairs_eq_map] at h
  obtain ⟨⟨k, v⟩, hmem, heq⟩ := List.mem_map.mp h
  exact ⟨k, v, hmem, heq.symm⟩

theorem dlookup_eq_none_of_not_mem_keys {s : String} {d : List (String × Json)}
    (h : s ∉ d.map Prod.fst) : dlookup s d = none := by
  induction d with
  | nil => rfl
  | cons p rest ih =>
      obtain ⟨k1, v1⟩ := p
      simp only [List.map_cons, List.mem_cons] at h
      push_neg at h
      simp only [dlookup, if_neg (fun hc : k1 = s => h.1 hc.symm)]
      exact ih h.2

/-- Raw key `k` occurs as a key of some object anywhere inside `v`. -/
inductive RawKeyOccurs (k : String) : Json → Prop where
  | head {kvs : List (String × Json)} {w : Json} :
      (k, w) ∈ kvs → RawKeyOccurs k (Json.obj kvs)
  | inObj {kvs : List (String × Json)} {k1 : String} {w : Json} :
      (k1, w) ∈ kvs → RawKeyOccurs k w → RawKeyOccurs k (Json.obj kvs)
  | inArr {xs : List Json} {x : Json} :
      x ∈ xs → RawKeyOccurs k x → RawKeyOccurs k (Json.arr xs)

/-- The object `kvs` occurs (as an object node) anywhere inside `v`. -/
inductive ObjOccurs (kvs : List (String × Json)) : Json → Prop where
  | here : ObjOccurs kvs (Json.obj kvs)
  | inObj {kvs1 : List (String × Json)} {k1 : String} {w : Json} :
      (k1, w) ∈ kvs1 → ObjOccurs kvs w → ObjOccurs kvs (Json.obj kvs1)
  | inArr {xs : List Json} {x : Json} :
      x ∈ xs → ObjOccurs kvs x → ObjOccurs kvs (Json.arr xs)

/-- Redaction of an object: every entry of `anonymize` output built from
a sensitive sanitized key carries the sentinel. -/
theorem redacted_of_sensitive {S : List String} {kvs : List (String × Json)}
    {s : String} {w : Json}
    (h : (s, w) ∈ dictOf (anonymizePairs S kvs)) (hS : s ∈ S) :
    w = Json.str "REDACTED" := by
  obtain ⟨k, v, _, heq⟩ := mem_anonymizePairs (mem_dictOf h)
  have h1 : s = sanitize_key k ∧
      w = (if sanitize_key k ∈ S then Json.str "REDACTED" else anonymize S v) := by
    simpa [Prod.ext_iff] using heq
  rw [h1.2, if_pos (h1.1 ▸ hS)]

/-- C1 (redaction completeness): for every JSON value `v`, every
sensitive set `S`, every object `kvs` occurring anywhere inside `v`, and
every key `k` of that object with `sanitize_key k ∈ S`, the object that
`anonymize` produces from `kvs` maps `sanitize_key k` to the literal
string `"REDACTED"`, whatever the original value `w` was (it is
discarded without being recursed into). -/
theorem C1_redaction_completeness (S : List String) (v : Json)
    (kvs : List (String × Json)) (hocc : ObjOccurs kvs v)
    (k : String) (w : Json) (hmem : (k, w) ∈ kvs) (hS : sanitize_key k ∈ S) :
    anonymize S (Json.obj kvs) = Json.obj (dictOf (anonymizePairs S kvs)) ∧
      dlookup (sanitize_key k) (dictOf (anonymizePairs S kvs)) =
        some (Json.str "REDACTED") := by
  refine ⟨by simp [anonymize], ?_⟩
  have hkeys : sanitize_key k ∈ (anonymizePairs S kvs).map Prod.fst := by
    rw [keys_anonymizePairs]
    exact List.mem_map.mpr ⟨(k, w), hmem, rfl⟩
  obtain ⟨v0, hv0, hmem0⟩ := dlookup_eq_some_of_mem_keys (keys_dictOf.mpr hkeys)
  rw [hv0, redacted_of_sensitive hmem0 hS]

/-- Witness for C1: spec scenario 1, the object
`username: alice, bio: hi` with sensitive set `username`: the output
maps `username` to `"REDACTED"`. -/
theorem C1_redaction_completeness_witness :
    anonymize ["username"] (Json.obj [("username", Json.str "alice"), ("bio", Json.str "hi")])
      = Json.obj (dictOf (anonymizePairs ["username"]
          [("username", Json.str "alice"), ("bio", Json.str "hi")])) ∧
      dlookup (sanitize_key "username")
        (dictOf (anonymizePairs ["username"]
          [("username", Json.str "alice"), ("bio", Json.str "hi")]))
        = some (Json.str "REDACTED") :=
  C1_redaction_completeness ["username"]
    (Json.obj [("username", Json.str "alice"), ("bio", Json.str "hi")])
    [("username", Json.str "alice"), ("bio", Json.str "hi")]
    ObjOccurs.here "username" (Json.str "alice") (by simp) (by decide)

/-- C2 (structure preservation): `anonymize` maps an object to an object
whose number of entries is the number of distinct sanitized forms of the
input keys, and maps an array to an array of the same length, obtained
element-wise (arrays are never redacted wholesale), so the nesting of
the non-redacted containers is unchanged. -/
theorem C2_structure_preservation (S : List String) :
    (∀ kvs : List (String × Json),
       anonymize S (Json.obj kvs) = Json.obj (dictOf (anonymizePairs S kvs)) ∧
       (dictOf (anonymizePairs S kvs)).length
         = (kvs.map (fun p => sanitize_key p.1)).dedup.length) ∧
    (∀ xs : List Json,
       anonymize S (Json.arr xs) = Json.arr (xs.map (anonymize S)) ∧
       (xs.map (anonymize S)).length = xs.length) := by
  constructor
  · intro kvs
    refine ⟨by simp [anonymize], ?_⟩
    rw [length_dictOf, keys_anonymizePairs]
  · intro xs
    exact ⟨by simp [anonymize, anonymizeList_eq_map], by simp⟩

/-- C3 fails as stated: in the object with raw keys `a` and `a:` (which
both sanitize to `a`) and empty sensitive set, the raw key `a` is not
mapped to the anonymization of its own value `x`; the later colliding
key `a:` overwrote the entry with `y`. -/
theorem C3_nonredaction_passthrough_counterexample :
    sanitize_key "a" = "a" ∧ sanitize_key "a:" = "a" ∧
    anonymize [] (Json.obj [("a", Json.str "x"), ("a:", Json.str "y")])
      = Json.obj [("a", Json.str "y")] ∧
    dlookup (sanitize_key "a")
        (dictOf (anonymizePairs [] [("a", Json.str "x"), ("a:", Json.str "y")]))
      ≠ some (anonymize [] (Json.str "x")) := by
  have h1 : sanitize_key "a" = "a" := by decide
  have h2 : sanitize_key "a:" = "a" := by decide
  refine ⟨h1, h2, ?_, ?_⟩ <;>
  · simp [anonymize, anonymizePairs, dictOf, dinsert, dlookup, h1, h2]

/-- C3 amended (non-redaction passthrough for the surviving binding):
in every object of `v`, every key `k` with `sanitize_key k ∉ S` that is
the last key of its object with its sanitized form (always the case
when sanitized keys do not collide) is mapped by `anonymize` to the
entry `sanitize_key k -> anonymize(value, S)`, applied recursively; and
every scalar reached by the recursion is returned unchanged. -/
theorem C3_nonredaction_passthrough (S : List String) (v : Json)
    (kvs l1 l2 : List (String × Json)) (k : String) (w : Json)
    (hocc : ObjOccurs kvs v)
    (hsplit : kvs = l1 ++ (k, w) :: l2)
    (hS : sanitize_key k ∉ S)
    (hlast : ∀ k2 w2, (k2, w2) ∈ l2 → sanitize_key k2 ≠ sanitize_key k) :
    (anonymize S (Json.obj kvs) = Json.obj (dictOf (anonymizePairs S kvs)) ∧
     dlookup (sanitize_key k) (dictOf (anonymizePairs S kvs))
       = some (anonymize S w)) ∧
    (∀ s, anonymize S (Json.str s) = Json.str s) ∧
    (∀ n, anonymize S (Json.num n) = Json.num n) ∧
    (∀ b, anonymize S (Json.bool b) = Json.bool b) ∧
    anonymize S Json.null = Json.null := by
  refine ⟨⟨by simp [anonymize], ?_⟩,
    fun s => by simp [anonymize], fun n => by simp [anonymize],
    fun b => by simp [anonymize], by simp [anonymize]⟩
  subst hsplit
  rw [dlookup_dictOf, anonymizePairs_append]
  have hcons : anonymizePairs S ((k, w) :: l2)
      = (sanitize_key k, anonymize S w) :: anonymizePairs S l2 := by
    simp [anonymizePairs, if_neg hS]
  rw [hcons, List.reverse_append, List.reverse_cons, List.append_assoc,
    dlookup_append]
  have hnone : dlookup (sanitize_key k) (anonymizePairs S l2).reverse = none := by
    apply dlookup_eq_none_of_not_mem_keys
    intro hc
    rw [List.map_reverse, List.mem_reverse, keys_anonymizePairs] at hc
    obtain ⟨⟨k2, w2⟩, hmem, heq⟩ := List.mem_map.mp hc
    exact hlast k2 w2 hmem heq
  rw [hnone]
  simp [dlookup]

/-- Witness for C3 amended: spec scenario 3, the object
`Story: -> text` with empty sensitive set: the output maps `Story` to
the unchanged scalar. -/
theorem C3_nonredaction_passthrough_witness :
    (anonymize [] (Json.obj [("Story:", Json.str "text")])
       = Json.obj (dictOf (anonymizePairs [] [("Story:", Json.str "text")])) ∧
     dlookup (sanitize_key "Story:")
        (dictOf (anonymizePairs [] [("Story:", Json.str "text")]))
       = some (anonymize [] (Json.str "text"))) ∧
    (∀ s, anonymize [] (Json.str s) = Json.str s) ∧
    (∀ n, anonymize [] (Json.num n) = Json.num n) ∧
    (∀ b, anonymize [] (Json.bool b) = Json.bool b) ∧
    anonymize [] Json.null = Json.null :=
  C3_nonredaction_passthrough [] (Json.obj [("Story:", Json.str "text")])
    [("Story:", Json.str "text")] [] [] "Story:" (Json.str "text")
    ObjOccurs.here rfl (by simp) (by simp)

theorem mem_extractObj {s : String} {kvs : List (String × Json)} :
    s ∈ extractObj kvs ↔ ∃ k w, (k, w) ∈ kvs ∧
      ((sanitize_key k = s ∧ str_isdigit s = false) ∨ s ∈ extract_keys w) := by
  induction kvs with
  | nil => simp [extractObj]
  | cons p rest ih =>
      obtain ⟨k, v⟩ := p
      rw [show extractObj ((k, v) :: rest)
          = (if str_isdigit (sanitize_key k) then ∅ else {sanitize_key k}) ∪
              extract_keys v ∪ extractObj rest from by simp [extractObj]]
      constructor
      · intro h
        rcases Finset.mem_union.mp h with h1 | h1
        · rcases Finset.mem_union.mp h1 with h2 | h2
          · by_cases hd : str_isdigit (sanitize_key k)
            · rw [if_pos hd] at h2
              simp at h2
            · rw [if_neg hd] at h2
              have hs : s = sanitize_key k := Finset.mem_singleton.mp h2
              exact ⟨k, v, by simp, Or.inl ⟨hs.symm, by rw [hs]; simpa using hd⟩⟩
          · exact ⟨k, v, by simp, Or.inr h2⟩
        · obtain ⟨k1, w1, hmem, hcase⟩ := ih.mp h1
          exact ⟨k1, w1, List.mem_cons_of_mem _ hmem, hcase⟩
      · rintro ⟨k1, w1, hmem, hcase⟩
        rcases List.mem_cons.mp hmem with h1 | h1
        · obtain ⟨hk, hw⟩ := Prod.mk.injEq .. ▸ h1
          rcases hcase with ⟨hs, hd⟩ | hin
          · apply Finset.mem_union_left
            apply Finset.mem_union_left
            rw [hk] at hs
            rw [if_neg (by rw [hs]; simp [hd])]
            exact Finset.mem_singleton.mpr hs.symm
          · apply Finset.mem_union_left
            apply Finset.mem_union_right
            rw [hw] at hin
            exact hin
        · exact Finset.mem_union_right _ (ih.mpr ⟨k1, w1, h1, hcase⟩)

theorem mem_extractArr {s : String} {xs : List Json} :
    s ∈ extractArr xs ↔ ∃ x, x ∈ xs ∧ s ∈ extract_keys x := by
  induction xs with
  | nil => simp [extractArr]
  | cons x rest ih =>
      rw [show extractArr (x :: rest) = extract_keys x ∪ extractArr rest from by
        simp [extractArr]]
      constructor
      · intro h
        rcases Finset.mem_union.mp h with h1 | h1
        · exact ⟨x, by simp, h1⟩
        · obtain ⟨x1, hmem, hin⟩ := ih.mp h1
          exact ⟨x1, List.mem_cons_of_mem _ hmem, hin⟩
      · rintro ⟨x1, hmem, hin⟩
        rcases List.mem_cons.mp hmem with h1 | h1
        · exact Finset.mem_union_left _ (h1 ▸ hin)
        · exact Finset.mem_union_right _ (ih.mpr ⟨x1, h1, hin⟩)

/-- Modelled from the spec: a string that `consists entirely of ASCII
digits` (the exclusion criterion the spec states for extracted keys). -/
def allAsciiDigits (s : String) : Bool :=
  !s.data.isEmpty && s.data.all (fun c => '0' ≤ c && c ≤ '9')

/-- C4 fails as stated: the superscript-two key sanitizes to itself and
does not consist of ASCII digits, so by the claim it should be
extracted, but CPython `str.isdigit` is true on it and the code drops
it: `extract_keys` of the object with that single key is empty. -/
theorem C4_key_extraction_counterexample :
    sanitize_key "²" = "²" ∧ allAsciiDigits "²" = false ∧
      extract_keys (Json.obj [("²", Json.null)]) = ∅ := by
  refine ⟨by decide, by decide, ?_⟩
  have h1 : str_isdigit (sanitize_key "²") = true := by decide
  simp [extract_keys, extractObj, h1]

/-- C4 amended (key extraction exhaustiveness): `extract_keys v` is
exactly the set of strings `sanitize_key k` for `k` a key of any object
occurring anywhere in `v` such that `sanitize_key k` is not a nonempty
string of Unicode digit characters in the sense of Python `str.isdigit`
(a superset of the ASCII digits that also contains, e.g., superscript
digits); keys whose sanitized form is `isdigit` are excluded but their
values are still recursed into, arrays are recursed element-wise, and
scalars contribute nothing. -/
theorem C4_key_extraction (v : Json) (s : String) :
    s ∈ extract_keys v ↔
      ∃ k, RawKeyOccurs k v ∧ sanitize_key k = s ∧ str_isdigit s = false := by
  induction v using Json.indOn with
  | hobj kvs ih =>
      rw [show extract_keys (Json.obj kvs) = extractObj kvs from by simp [extract_keys],
        mem_extractObj]
      constructor
      · rintro ⟨k, w, hmem, hcase⟩
        rcases hcase with ⟨hs, hd⟩ | hin
        · exact ⟨k, RawKeyOccurs.head hmem, hs, hd⟩
        · obtain ⟨k1, hocc, hs, hd⟩ := (ih k w hmem).mp hin
          exact ⟨k1, RawKeyOccurs.inObj hmem hocc, hs, hd⟩
      · rintro ⟨k, hocc, hs, hd⟩
        cases hocc with
        | head hmem => exact ⟨k, _, hmem, Or.inl ⟨hs, hd⟩⟩
        | inObj hmem hocc2 =>
            exact ⟨_, _, hmem, Or.inr ((ih _ _ hmem).mpr ⟨k, hocc2, hs, hd⟩)⟩
  | harr xs ih =>
      rw [show extract_keys (Json.arr xs) = extractArr xs from by simp [extract_keys],
        mem_extractArr]
      constructor
      · rintro ⟨x, hmem, hin⟩
        obtain ⟨k, hocc, hs, hd⟩ := (ih x hmem).mp hin
        exact ⟨k, RawKeyOccurs.inArr hmem hocc, hs, hd⟩
      · rintro ⟨k, hocc, hs, hd⟩
        cases hocc with
        | inArr hmem hocc2 => exact ⟨_, hmem, (ih _ hmem).mpr ⟨k, hocc2, hs, hd⟩⟩
  | hstr s1 =>
      constructor
      · intro h; simp [extract_keys] at h
      · rintro ⟨k, hocc, _, _⟩; cases hocc
  | hnum n =>
      constructor
      · intro h; simp [extract_keys] at h
      · rintro ⟨k, hocc, _, _⟩; cases hocc
  | hbool b =>
      constructor
      · intro h; simp [extract_keys] at h
      · rintro ⟨k, hocc, _, _⟩; cases hocc
  | hnull =>
      constructor
      · intro h; simp [extract_keys] at h
      · rintro ⟨k, hocc, _, _⟩; cases hocc

theorem matchesAnyPattern_eq_false (k : List Char)
    (h1 : startsWithL (k.map reFold) "chat history with ".data = false)
    (h2 : startsWithL (k.map reFold) "comments:".data = false)
    (h3 : startsWithL (k.map reFold) "comment:".data = false)
    (h4 : startsWithL (k.map reFold) "replies:".data = false)
    (h5 : startsWithL (k.map reFold) "replie:".data = false)
    (h6 : startsWithL (k.map reFold) "posts:".data = false)
    (h7 : startsWithL (k.map reFold) "post:".data = false)
    (h8 : startsWithL (k.map reFold) "story:".data = false) :
    matchesAnyPattern k = false := by
  simp [matchesAnyPattern, KEY_PATTERNS, patChatHistory, patComments,
    patReplies, patPosts, patStory, imatchLit, h1, h2, h3, h4, h5, h6, h7, h8]

theorem rstripColons_eq_self {cs : List Char}
    (h : ∀ c, cs.getLast? = some c → ¬ c = ':') : rstripColons cs = cs := by
  unfold rstripColons
  cases hr : cs.reverse with
  | nil =>
      have : cs = [] := by simpa using congrArg List.reverse hr
      simp [this]
  | cons c t =>
      have hc : cs.getLast? = some c := by
        rw [← List.head?_reverse, hr]
        rfl
      have : ¬ (c = ':') := h c hc
      rw [List.dropWhile_cons_of_neg (by simpa using this), ← hr,
        List.reverse_reverse]

theorem sanitize_key_eq_self {k : String}
    (hm : matchesAnyPattern k.data = false)
    (hl : ∀ c, k.data.getLast? = some c → ¬ c = ':') :
    sanitize_key k = k := by
  have hd : sanitizeKeyL k.data = k.data := by
    rw [sanitizeKeyL, if_neg (by simp [hm]), rstripColons_eq_self hl]
  cases k
  simp [sanitize_key, hd]

theorem last_ne_colon_of_bool {w : List Char} (h : (w.getLast? == some ':') = false) :
    ∀ c, w.getLast? = some c → ¬ c = ':' := by
  intro c hc hcol
  subst hcol
  rw [hc] at h
  simp at h

theorem getLast_ne_colon_of_fold {k w : List Char}
    (h : k.map reFold = w) (hw : ∀ c, w.getLast? = some c → ¬ c = ':') :
    ∀ c, k.getLast? = some c → ¬ c = ':' := by
  intro c hc hcol
  subst hcol
  have hg : w.getLast? = some ':' := by
    rw [← h, List.getLast?_map, hc]
    rfl
  exact hw ':' hg rfl

/-- C5 fails as stated: `story` with no colon after it matches no
pattern of `KEY_PATTERNS` (each bare-word pattern demands a literal
colon), so `sanitize_key` returns it unchanged instead of the
title-cased `Story` that the claim predicts. -/
theorem C5_optional_colon_counterexample :
    sanitize_key "story" = "story" ∧ ¬ sanitize_key "story" = "Story" ∧
      sanitize_key "comments" = "comments" ∧ ¬ sanitize_key "comments" = "Comments" := by
  decide

/-- C5 amended: the colon in the recognized patterns is required, not
optional.  Every raw key that case-folds to one of the bare words
`comment`, `comments`, `reply`, `replies`, `post`, `posts`, `story`
(no colon) matches no pattern and is returned unchanged.  With a colon
appended the comment/replie/post/story stems do match and yield the
title-cased stem; note the reply pattern stem is `replie`, so even
`reply:` does not match and only loses its trailing colon. -/
theorem C5_colon_required :
    (∀ k : String, k.data.map reFold ∈
        ["comment".data, "comments".data, "reply".data, "replies".data,
         "post".data, "posts".data, "story".data] →
      sanitize_key k = k) ∧
    sanitize_key "comment:" = "Comment" ∧ sanitize_key "comments:" = "Comments" ∧
    sanitize_key "replies:" = "Replies" ∧ sanitize_key "reply:" = "reply" ∧
    sanitize_key "post:" = "Post" ∧ sanitize_key "posts:" = "Posts" ∧
    sanitize_key "story:" = "Story" := by
  refine ⟨?_, by decide, by decide, by decide, by decide, by decide, by decide, by decide⟩
  intro k h
  simp only [List.mem_cons, List.mem_singleton, List.not_mem_nil, or_false] at h
  rcases h with hl | hl | hl | hl | hl | hl | hl <;>
    exact sanitize_key_eq_self
      (matchesAnyPattern_eq_false _ (by rw [hl]; decide) (by rw [hl]; decide)
        (by rw [hl]; decide) (by rw [hl]; decide) (by rw [hl]; decide)
        (by rw [hl]; decide) (by rw [hl]; decide) (by rw [hl]; decide))
      (getLast_ne_colon_of_fold hl (last_ne_colon_of_bool (by decide)))

/-- Witness for C5 amended: the bare key `story` is returned unchanged. -/
theorem C5_colon_required_witness :
    "story".data.map reFold ∈
        ["comment".data, "comments".data, "reply".data, "replies".data,
         "post".data, "posts".data, "story".data] ∧
      sanitize_key "story" = "story" :=
  ⟨by decide, C5_colon_required.1 "story" (by decide)⟩

/-- C6 fails as stated: on the no-match key `key::` the fallback
`rstrip` removes both trailing colons, not just one. -/
theorem C6_single_colon_counterexample :
    sanitize_key "key::" = "key" ∧ ¬ sanitize_key "key::" = "key:" := by
  decide

theorem head_dropWhile_false {p : Char → Bool} (l : List Char) :
    ∀ c, (l.dropWhile p).head? = some c → p c = false := by
  intro c hc
  have := List.head?_dropWhile_not p l
  rw [hc] at this
  simpa using this

/-- C6 amended: for every raw key that matches none of the recognized
patterns, `sanitize_key` removes every trailing colon (not at most
one) and changes nothing else: the input is the output followed by some
number of colons, and the output has no trailing colon. -/
theorem C6_rstrip_all_colons (k : String)
    (hm : matchesAnyPattern k.data = false) :
    ∃ n, k.data = (sanitize_key k).data ++ List.replicate n ':' ∧
      ∀ c, (sanitize_key k).data.getLast? = some c → ¬ c = ':' := by
  have hd : (sanitize_key k).data = rstripColons k.data := by
    simp [sanitize_key, sanitizeKeyL, hm]
  refine ⟨(k.data.reverse.takeWhile (fun c => c = ':')).length, ?_, ?_⟩
  · rw [hd]
    conv_lhs => rw [← List.reverse_reverse k.data,
      ← List.takeWhile_append_dropWhile (p := fun c => c = ':') (l := k.data.reverse)]
    rw [List.reverse_append]
    have hrep : k.data.reverse.takeWhile (fun c => c = ':')
        = List.replicate (k.data.reverse.takeWhile (fun c => c = ':')).length ':' :=
      List.eq_replicate_of_mem (fun b hb => by
        simpa using List.mem_takeWhile_imp hb)
    rw [rstripColons]
    conv_lhs => rw [hrep]
    rw [List.reverse_replicate]
  · intro c hc hcol
    subst hcol
    rw [hd, rstripColons] at hc
    rw [List.getLast?_reverse] at hc
    have := head_dropWhile_false (p := fun c => c = ':') k.data.reverse ':' hc
    simp at this

/-- Witness for C6 amended: `key::` loses both trailing colons, leaving
`key` with no trailing colon. -/
theorem C6_rstrip_all_colons_witness :
    matchesAnyPattern "key::".data = false ∧
      ∃ n, "key::".data = (sanitize_key "key::").data ++ List.replicate n ':' ∧
        ∀ c, (sanitize_key "key::").data.getLast? = some c → ¬ c = ':' :=
  ⟨by decide, C6_rstrip_all_colons "key::" (by decide)⟩

/-- True iff `c` is one of the ASCII whitespace characters. -/
def isWs (c : Char) : Bool := c = ' ' || c = '\t' || c = '\n' || c = '\r'

/-- Modelled from the spec: title case where words are delimited by
whitespace only - the first letter of each whitespace-separated word is
capitalized and the remainder of the word is lowercased, so any letter
after a non-whitespace character stays lowercase.  The flag records
whether the previous character was a non-whitespace character. -/
def specTitleWSAux : Bool → List Char → List Char
  | _, [] => []
  | inWord, c :: cs =>
      (if isWs c then [c]
       else if inWord then pyLowerChar c else pyTitleChar c)
        ++ specTitleWSAux (!isWs c) cs

/-- Modelled from the spec: whitespace-delimited title casing of a
whole string (initial flag off). -/
def specTitleWS (cs : List Char) : List Char := specTitleWSAux false cs

/-- C7 fails as stated: on the matching key `Chat History with a_b` the
code title-cases the letter after the underscore (CPython `str.title`
starts a new word at every non-cased character), producing
`Chat History With A_B`, while the whitespace-only splitting stated by
the claim would produce `Chat History With A_b`. -/
theorem C7_title_whitespace_counterexample :
    matchesAnyPattern "Chat History with a_b".data = true ∧
      sanitize_key "Chat History with a_b" = "Chat History With A_B" ∧
      specTitleWS (beforeColon "Chat History with a_b".data)
        = "Chat History With A_b".data ∧
      ¬ (sanitize_key "Chat History with a_b").data
          = specTitleWS (beforeColon "Chat History with a_b".data) := by
  decide

theorem uncased_lower_self {c : Char} (hc : isCased c = false) :
    pyLowerChar c = [c] := by
  rw [isCased] at hc
  simp only [Bool.or_eq_false_iff] at hc
  rw [pyLowerChar, if_neg (by simp [hc.1.1]), if_neg (by simpa using hc.2)]

theorem uncased_title_self {c : Char} (hc : isCased c = false) :
    pyTitleChar c = [c] := by
  rw [isCased] at hc
  simp only [Bool.or_eq_false_iff] at hc
  rw [pyTitleChar, if_neg (by simp [hc.1.2])]

theorem pyTitleAux_append_uncased (b : Bool) (xs ys : List Char) {c : Char}
    (hc : isCased c = false) :
    pyTitleAux b (xs ++ c :: ys) = pyTitleAux b xs ++ c :: pyTitleAux false ys := by
  induction xs generalizing b with
  | nil =>
      simp [pyTitleAux, uncased_lower_self hc, uncased_title_self hc, hc]
  | cons a t ih =>
      simp [pyTitleAux, ih]

/-- C7 amended: title-casing on match starts a new word at EVERY
non-cased character, not only at whitespace: when a key matches a
recognized pattern and its pre-colon part splits as `xs, c, ys` with `c`
not a cased character (whitespace, underscore, hyphen, apostrophe,
digit, ...), `sanitize_key` title-cases `xs` and `ys` independently, so
a letter right after `c` is capitalized rather than lowercased. -/
theorem C7_title_cased_runs (k : String) (hm : matchesAnyPattern k.data = true)
    (xs ys : List Char) (c : Char)
    (hsplit : beforeColon k.data = xs ++ c :: ys) (hc : isCased c = false) :
    sanitize_key k = ⟨pyTitle xs ++ c :: pyTitle ys⟩ := by
  have hd : (sanitize_key k).data = pyTitle (beforeColon k.data) := by
    simp [sanitize_key, sanitizeKeyL, hm]
  apply String.ext
  rw [hd, hsplit, pyTitle, pyTitleAux_append_uncased false xs ys hc]
  rfl

/-- Witness for C7 amended: the key `Chat History with a_b`, split at
the underscore: the `b` after the underscore is capitalized. -/
theorem C7_title_cased_runs_witness :
    matchesAnyPattern "Chat History with a_b".data = true ∧
      beforeColon "Chat History with a_b".data
        = "Chat History with a".data ++ '_' :: "b".data ∧
      isCased '_' = false ∧
      sanitize_key "Chat History with a_b"
        = ⟨pyTitle "Chat History with a".data ++ '_' :: pyTitle "b".data⟩ :=
  ⟨by decide, by decide, by decide,
    C7_title_cased_runs "Chat History with a_b" (by decide)
      "Chat History with a".data "b".data '_' (by decide) (by decide)⟩

/-- C8 (key sanitization is not idempotent): there is a raw key whose
second sanitization differs from its first.  The witness is
`Chat History with xİy`: the first pass lowercases the dotted capital I
to `i` followed by a combining dot above (the CPython special casing of
U+0130), and on the second pass the combining dot, not being a cased
character, starts a new word, so the following `y` is capitalized. -/
theorem C8_sanitize_not_idempotent :
    ∃ k : String, ¬ sanitize_key (sanitize_key k) = sanitize_key k :=
  ⟨"Chat History with xİy", by decide⟩

theorem list_map_self {α : Type} (f : α → α) (l : List α)
    (h : ∀ x, x ∈ l → f x = x) : l.map f = l := by
  induction l with
  | nil => rfl
  | cons a t ih =>
      rw [List.map_cons, h a (by simp), ih (fun x hx => h x (by simp [hx]))]

/-- C9 fails as stated: anonymizing twice can differ from anonymizing
once, because an output key need not be a fixed point of
`sanitize_key` (see the non-idempotent key of C8). -/
theorem C9_anonymize_idempotent_counterexample :
    ¬ anonymize [] (anonymize [] (Json.obj [("Chat History with xİy", Json.null)]))
        = anonymize [] (Json.obj [("Chat History with xİy", Json.null)]) := by
  have h1 : ¬ sanitize_key (sanitize_key "Chat History with xİy")
      = sanitize_key "Chat History with xİy" := by decide
  intro hc
  apply h1
  have := congrArg (fun j => match j with
    | Json.obj ((s, _) :: _) => s
    | _ => "") hc
  simpa [anonymize, anonymizePairs, dictOf, dinsert] using this

/-- C9 amended (anonymization is idempotent on sanitize-stable keys):
for every JSON value `v` and sensitive set `S`, if every raw key
occurring in `v` has a sanitized form that is a fixed point of
`sanitize_key` (true in particular for every ASCII key; the failure
needs Unicode special casing), then
`anonymize (anonymize v S) S = anonymize v S`: the second pass redacts
the same entries (already `"REDACTED"`) and leaves everything else as
is. -/
theorem C9_anonymize_idempotent (S : List String) (v : Json)
    (hfix : ∀ k, RawKeyOccurs k v →
      sanitize_key (sanitize_key k) = sanitize_key k) :
    anonymize S (anonymize S v) = anonymize S v := by
  induction v using Json.indOn with
  | hobj kvs ih =>
      have hstep : anonymize S (Json.obj kvs)
          = Json.obj (dictOf (anonymizePairs S kvs)) := by simp [anonymize]
      rw [hstep]
      have hpairs : anonymizePairs S (dictOf (anonymizePairs S kvs))
          = dictOf (anonymizePairs S kvs) := by
        rw [anonymizePairs_eq_map]
        apply list_map_self
        rintro ⟨s, w⟩ hmem
        obtain ⟨k0, v0, hmem0, heq⟩ := mem_anonymizePairs (mem_dictOf hmem)
        have hc : s = sanitize_key k0 ∧
            w = (if sanitize_key k0 ∈ S then Json.str "REDACTED"
                 else anonymize S v0) := by
          simpa [Prod.ext_iff] using heq
        have hsfix : sanitize_key s = s := by
          rw [hc.1]
          exact hfix k0 (RawKeyOccurs.head hmem0)
        simp only [hsfix]
        by_cases hS : s ∈ S
        · have hw : w = Json.str "REDACTED" := by
            rw [hc.2, if_pos (hc.1 ▸ hS)]
          rw [if_pos hS, hw]
        · have hw : w = anonymize S v0 := by
            rw [hc.2, if_neg (hc.1 ▸ hS)]
          have hidem : anonymize S (anonymize S v0) = anonymize S v0 :=
            ih k0 v0 hmem0 (fun k1 hk1 =>
              hfix k1 (RawKeyOccurs.inObj hmem0 hk1))
          rw [if_neg hS, hw, hidem]
      rw [show anonymize S (Json.obj (dictOf (anonymizePairs S kvs)))
          = Json.obj (dictOf (anonymizePairs S (dictOf (anonymizePairs S kvs))))
          from by simp [anonymize]]
      rw [hpairs, dictOf_self nodup_keys_dictOf]
  | harr xs ih =>
      have hstep : anonymize S (Json.arr xs) = Json.arr (xs.map (anonymize S)) := by
        simp [anonymize, anonymizeList_eq_map]
      rw [hstep]
      rw [show anonymize S (Json.arr (xs.map (anonymize S)))
          = Json.arr ((xs.map (anonymize S)).map (anonymize S)) from by
        simp [anonymize, anonymizeList_eq_map]]
      rw [List.map_map]
      congr 1
      apply List.map_congr_left
      intro x hx
      exact ih x hx (fun k1 hk1 => hfix k1 (RawKeyOccurs.inArr hx hk1))
  | hstr s => simp [anonymize]
  | hnum n => simp [anonymize]
  | hbool b => simp [anonymize]
  | hnull => simp [anonymize]

/-- Witness for C9 amended: spec scenario 4, nested `id` keys with
sensitive set `id`: anonymizing twice equals anonymizing once. -/
theorem C9_anonymize_idempotent_witness :
    anonymize ["id"] (anonymize ["id"]
        (Json.obj [("id", Json.num 42), ("nested", Json.obj [("id", Json.num 7)])]))
      = anonymize ["id"]
        (Json.obj [("id", Json.num 42), ("nested", Json.obj [("id", Json.num 7)])]) := by
  apply C9_anonymize_idempotent
  intro k hocc
  cases hocc with
  | head hmem =>
      simp only [List.mem_cons, List.not_mem_nil, or_false] at hmem
      rcases hmem with h1 | h1
      · obtain ⟨hk, hw⟩ := Prod.mk.injEq .. ▸ h1
        rw [hk]
        decide
      · obtain ⟨hk, hw⟩ := Prod.mk.injEq .. ▸ h1
        rw [hk]
        decide
  | inObj hmem hocc2 =>
      simp only [List.mem_cons, List.not_mem_nil, or_false] at hmem
      rcases hmem with h1 | h1
      · obtain ⟨hk, hw⟩ := Prod.mk.injEq .. ▸ h1
        rw [hw] at hocc2
        cases hocc2
      · obtain ⟨hk, hw⟩ := Prod.mk.injEq .. ▸ h1
        rw [hw] at hocc2
        cases hocc2 with
        | head hmem2 =>
            simp only [List.mem_cons, List.not_mem_nil, or_false] at hmem2
            obtain ⟨hk2, hw2⟩ := Prod.mk.injEq .. ▸ hmem2
            rw [hk2]
            decide
        | inObj hmem2 hocc3 =>
            simp only [List.mem_cons, List.not_mem_nil, or_false] at hmem2
            obtain ⟨hk2, hw2⟩ := Prod.mk.injEq .. ▸ hmem2
            rw [hw2] at hocc3
            cases hocc3

mutual
/-- Nesting depth of a JSON value (scalars have depth 1, containers one
more than their deepest member); the recursion depth the Python
functions need on the value. -/
def depth : Json → Nat
  | Json.obj kvs => 1 + depthPairs kvs
  | Json.arr xs => 1 + depthElems xs
  | _ => 1

/-- Greatest depth of the values of an object`s pairs. -/
def depthPairs : List (String × Json) → Nat
  | [] => 0
  | (_, v) :: rest => max (depth v) (depthPairs rest)

/-- Greatest depth of the elements of an array. -/
def depthElems : List Json → Nat
  | [] => 0
  | x :: rest => max (depth x) (depthElems rest)
end

/-- Option-valued map over a list, failing when any element fails. -/
def mapMO {α β : Type} (f : α → Option β) : List α → Option (List β)
  | [] => some []
  | a :: t =>
      match f a, mapMO f t with
      | some b, some bs => some (b :: bs)
      | _, _ => none

/-- `anonymize` with an explicit recursion-depth budget: one unit of
fuel is consumed per call, `none` signals that the budget ran out. -/
def anonymizeF : Nat → List String → Json → Option Json
  | 0, _, _ => none
  | n + 1, S, Json.obj kvs =>
      (mapMO (fun p =>
        if sanitize_key p.1 ∈ S then some (sanitize_key p.1, Json.str "REDACTED")
        else (anonymizeF n S p.2).map (fun w => (sanitize_key p.1, w))) kvs).map
        (fun ps => Json.obj (dictOf ps))
  | n + 1, S, Json.arr xs => (mapMO (anonymizeF n S) xs).map Json.arr
  | _ + 1, _, v => some v

mutual
/-- `extract_keys` with an explicit recursion-depth budget. -/
def extract_keysF : Nat → Json → Option (Finset String)
  | 0, _ => none
  | n + 1, Json.obj kvs => extractObjF n kvs
  | n + 1, Json.arr xs => extractArrF n xs
  | _ + 1, _ => some ∅

/-- Fuel-budgeted object loop of `extract_keys`. -/
def extractObjF : Nat → List (String × Json) → Option (Finset String)
  | _, [] => some ∅
  | n, (k, v) :: rest => do
      let s1 ← extract_keysF n v
      let s2 ← extractObjF n rest
      some ((if str_isdigit (sanitize_key k) then ∅ else {sanitize_key k}) ∪ s1 ∪ s2)

/-- Fuel-budgeted array loop of `extract_keys`. -/
def extractArrF : Nat → List Json → Option (Finset String)
  | _, [] => some ∅
  | n, x :: rest => do
      let s1 ← extract_keysF n x
      let s2 ← extractArrF n rest
      some (s1 ∪ s2)
end

theorem depth_pos (v : Json) : 1 ≤ depth v := by
  cases v <;> simp [depth]

theorem depth_le_depthPairs {k : String} {v : Json} {kvs : List (String × Json)}
    (h : (k, v) ∈ kvs) : depth v ≤ depthPairs kvs := by
  induction kvs with
  | nil => simp at h
  | cons p rest ih =>
      obtain ⟨k1, v1⟩ := p
      rcases List.mem_cons.mp h with h1 | h1
      · obtain ⟨hk, hv⟩ := Prod.mk.injEq .. ▸ h1
        rw [hv]
        simp [depthPairs]
      · calc depth v ≤ depthPairs rest := ih h1
          _ ≤ _ := by simp [depthPairs]

theorem anonymizePairsF_eq {n : Nat} {S : List String}
    (IH : ∀ v, depth v ≤ n → anonymizeF n S v = some (anonymize S v)) :
    ∀ kvs : List (String × Json), depthPairs kvs ≤ n →
      mapMO (fun p =>
        if sanitize_key p.1 ∈ S then some (sanitize_key p.1, Json.str "REDACTED")
        else (anonymizeF n S p.2).map (fun w => (sanitize_key p.1, w))) kvs
        = some (anonymizePairs S kvs) := by
  intro kvs
  induction kvs with
  | nil => intro h; simp [mapMO, anonymizePairs]
  | cons p rest ihl =>
      intro h
      obtain ⟨k, v0⟩ := p
      have hmax : max (depth v0) (depthPairs rest) ≤ n := by
        simpa [depthPairs] using h
      by_cases hS : sanitize_key k ∈ S
      · simp [mapMO, hS, ihl (le_trans (le_max_right _ _) hmax), anonymizePairs]
      · simp [mapMO, hS, IH v0 (le_trans (le_max_left _ _) hmax),
          ihl (le_trans (le_max_right _ _) hmax), anonymizePairs]

theorem anonymizeElemsF_eq {n : Nat} {S : List String}
    (IH : ∀ v, depth v ≤ n → anonymizeF n S v = some (anonymize S v)) :
    ∀ xs : List Json, depthElems xs ≤ n →
      mapMO (anonymizeF n S) xs = some (xs.map (anonymize S)) := by
  intro xs
  induction xs with
  | nil => intro h; simp [mapMO]
  | cons x rest ihl =>
      intro h
      have hmax : max (depth x) (depthElems rest) ≤ n := by
        simpa [depthElems] using h
      simp [mapMO, IH x (le_trans (le_max_left _ _) hmax),
        ihl (le_trans (le_max_right _ _) hmax)]

theorem anonymizeF_eq (n : Nat) :
    ∀ v : Json, ∀ S : List String, depth v ≤ n →
      anonymizeF n S v = some (anonymize S v) := by
  induction n with
  | zero =>
      intro v S h
      have := depth_pos v
      omega
  | succ n ih =>
      intro v S h
      cases v with
      | obj kvs =>
          have hd : depthPairs kvs ≤ n := by
            have h2 : depth (Json.obj kvs) = 1 + depthPairs kvs := by simp [depth]
            omega
          rw [show anonymizeF (n + 1) S (Json.obj kvs)
              = (mapMO (fun p =>
                  if sanitize_key p.1 ∈ S then
                    some (sanitize_key p.1, Json.str "REDACTED")
                  else (anonymizeF n S p.2).map
                    (fun w => (sanitize_key p.1, w))) kvs).map
                  (fun ps => Json.obj (dictOf ps)) from rfl,
            anonymizePairsF_eq (fun v0 hv0 => ih v0 S hv0) kvs hd]
          simp [anonymize]
      | arr xs =>
          have hd : depthElems xs ≤ n := by
            have h2 : depth (Json.arr xs) = 1 + depthElems xs := by simp [depth]
            omega
          rw [show anonymizeF (n + 1) S (Json.arr xs)
              = (mapMO (anonymizeF n S) xs).map Json.arr from rfl,
            anonymizeElemsF_eq (fun v0 hv0 => ih v0 S hv0) xs hd]
          simp [anonymize, anonymizeList_eq_map]
      | str s => simp [anonymizeF, anonymize]
      | num m => simp [anonymizeF, anonymize]
      | bool b => simp [anonymizeF, anonymize]
      | null => simp [anonymizeF, anonymize]

theorem extractObjF_eq {n : Nat}
    (IH : ∀ v, depth v ≤ n → extract_keysF n v = some (extract_keys v)) :
    ∀ kvs : List (String × Json), depthPairs kvs ≤ n →
      extractObjF n kvs = some (extractObj kvs) := by
  intro kvs
  induction kvs with
  | nil => intro h; simp [extractObjF, extractObj]
  | cons p rest ihl =>
      intro h
      obtain ⟨k, v0⟩ := p
      have hmax : max (depth v0) (depthPairs rest) ≤ n := by
        simpa [depthPairs] using h
      simp [extractObjF, IH v0 (le_trans (le_max_left _ _) hmax),
        ihl (le_trans (le_max_right _ _) hmax), extractObj]

theorem extractArrF_eq {n : Nat}
    (IH : ∀ v, depth v ≤ n → extract_keysF n v = some (extract_keys v)) :
    ∀ xs : List Json, depthElems xs ≤ n →
      extractArrF n xs = some (extractArr xs) := by
  intro xs
  induction xs with
  | nil => intro h; simp [extractArrF, extractArr]
  | cons x rest ihl =>
      intro h
      have hmax : max (depth x) (depthElems rest) ≤ n := by
        simpa [depthElems] using h
      simp [extractArrF, IH x (le_trans (le_max_left _ _) hmax),
        ihl (le_trans (le_max_right _ _) hmax), extractArr]

theorem extract_keysF_eq (n : Nat) :
    ∀ v : Json, depth v ≤ n → extract_keysF n v = some (extract_keys v) := by
  induction n with
  | zero =>
      intro v h
      have := depth_pos v
      omega
  | succ n ih =>
      intro v h
      cases v with
      | obj kvs =>
          have hd : depthPairs kvs ≤ n := by
            have h2 : depth (Json.obj kvs) = 1 + depthPairs kvs := by simp [depth]
            omega
          have h1 : extract_keysF (n + 1) (Json.obj kvs) = extractObjF n kvs := by
            simp [extract_keysF]
          rw [h1, extractObjF_eq ih kvs hd]
          simp [extract_keys]
      | arr xs =>
          have hd : depthElems xs ≤ n := by
            have h2 : depth (Json.arr xs) = 1 + depthElems xs := by simp [depth]
            omega
          have h1 : extract_keysF (n + 1) (Json.arr xs) = extractArrF n xs := by
            simp [extract_keysF]
          rw [h1, extractArrF_eq ih xs hd]
          simp [extract_keys]
      | str s => simp [extract_keysF, extract_keys]
      | num m => simp [extract_keysF, extract_keys]
      | bool b => simp [extract_keysF, extract_keys]
      | null => simp [extract_keysF, extract_keys]

/-- C10 (termination): on every finite JSON value and sensitive set the
fuel-budgeted variants of `anonymize` and `extract_keys` succeed, and
agree with the functions, whenever the budget is at least the nesting
depth of the input: the recursion is bounded by the document depth. -/
theorem C10_termination (v : Json) (S : List String) (n : Nat)
    (h : depth v ≤ n) :
    anonymizeF n S v = some (anonymize S v) ∧
      extract_keysF n v = some (extract_keys v) :=
  ⟨anonymizeF_eq n v S h, extract_keysF_eq n v h⟩

/-- Witness for C10: a two-level document evaluated with fuel 3. -/
theorem C10_termination_witness :
    depth (Json.obj [("a", Json.arr [Json.null])]) ≤ 3 ∧
      (anonymizeF 3 ["a"] (Json.obj [("a", Json.arr [Json.null])])
         = some (anonymize ["a"] (Json.obj [("a", Json.arr [Json.null])])) ∧
       extract_keysF 3 (Json.obj [("a", Json.arr [Json.null])])
         = some (extract_keys (Json.obj [("a", Json.arr [Json.null])]))) :=
  ⟨by simp [depth, depthPairs, depthElems],
    C10_termination (Json.obj [("a", Json.arr [Json.null])]) ["a"] 3
      (by simp [depth, depthPairs, depthElems])⟩
